import Mathlib

/-!
Verification of the binary-heap engine and the priority queue of the
repository `trigologiaa/go` (packages `heap` and `priorityqueue`), via a
shallow embedding of the Go code into Lean.

The heap stores its elements in a Go slice, modelled here as a `List`, and
a comparator fixed at construction.  Go's zero value for the element type
is modelled by an `Inhabited` instance; indexing `h.elements[i]` becomes
`List.getD` with that default (the code only ever indexes in bounds, so
the default is never observed).  Machine integers (`int`, 64-bit) are
modelled as `Int` with an explicit wrap at the one place the code
subtracts them (the priority-queue comparators).
-/

set_option maxHeartbeats 1000000
set_option maxRecDepth 16000
set_option linter.unusedVariables false

/-- Go slice indexing `l[i]`, total via the element type's zero value. -/
def geti {T : Type} [Inhabited T] (l : List T) (i : Nat) : T :=
  l.getD i default

/-- Go's simultaneous assignment
`h.elements[i], h.elements[j] = h.elements[j], h.elements[i]`:
both right-hand sides are read before either write. -/
def swapIdx {T : Type} [Inhabited T] (l : List T) (i j : Nat) : List T :=
  (l.set i (geti l j)).set j (geti l i)

/-- Two's-complement wrap of an integer to `w` bits, the semantics of Go's
fixed-size signed arithmetic. -/
def intWrap (w : Nat) (x : Int) : Int :=
  (x + 2 ^ (w - 1)) % 2 ^ w - 2 ^ (w - 1)

/-- Go `int` subtraction `a - b` (64-bit, wrap-around). -/
def goIntSub (a b : Int) : Int :=
  intWrap 64 (a - b)

/-- An integer `x` is representable as a 64-bit machine integer. -/
def inRange64 (x : Int) : Prop :=
  -(2 ^ 63) ≤ x ∧ x < 2 ^ 63

/-- The `intComparator` used by the repository's heap tests:
`-1` if `a < b`, `1` if `a > b`, else `0`. -/
def intComparator (a b : Int) : Int :=
  if a < b then -1 else if a > b then 1 else 0

namespace heap

/-- The heap struct of `heap.go`: a slice of elements and the comparator
fixed at construction. -/
structure Heap (T : Type) where
  elements : List T
  compare : T → T → Int

/-- NewGenericHeap of `heap.go`. -/
def NewGenericHeap {T : Type} (compare : T → T → Int) : Heap T :=
  { compare := compare, elements := [] }

/-- NewMinHeap of `heap.go`. -/
def NewMinHeap {T : Type} (compare : T → T → Int) : Heap T :=
  { compare := compare, elements := [] }

/-- NewMaxHeap of `heap.go`: binds the argument-swapped comparator. -/
def NewMaxHeap {T : Type} (compare : T → T → Int) : Heap T :=
  { compare := fun a b => compare b a, elements := [] }

/-- Size of `heap.go`. -/
def Heap.Size {T : Type} (h : Heap T) : Nat :=
  h.elements.length

/-- The loop of `upHeap` of `heap.go`, acting on the element slice:
while `i > 0`, with `parent := (i-1)/2`, stop if
`compare(elements[i], elements[parent]) > 0`, else swap and continue
from `parent`. -/
def upHeapList {T : Type} [Inhabited T] (compare : T → T → Int)
    (l : List T) (i : Nat) : List T :=
  if i = 0 then l
  else
    let parent := (i - 1) / 2
    if compare (geti l i) (geti l parent) > 0 then l
    else upHeapList compare (swapIdx l i parent) parent
termination_by i
decreasing_by
  have : (i - 1) / 2 ≤ i - 1 := Nat.div_le_self _ _
  omega

/-- The child-selection step of `downHeap` of `heap.go`: starting from
`smallest := i`, take the left child if it exists and compares smaller,
then the right child if it exists and compares smaller than the current
`smallest`. -/
def downSmallest {T : Type} [Inhabited T] (compare : T → T → Int)
    (l : List T) (i : Nat) : Nat :=
  let left := 2 * i + 1
  let right := 2 * i + 2
  let s1 := if left < l.length ∧ compare (geti l left) (geti l i) < 0 then left else i
  if right < l.length ∧ compare (geti l right) (geti l s1) < 0 then right else s1

/-- The chosen child, when it differs from `i`, lies strictly between `i`
and the length of the slice.  Needed for the termination of the
down-heap loop. -/
def downSmallest_lt {T : Type} [Inhabited T] (compare : T → T → Int)
    (l : List T) (i : Nat) (h : downSmallest compare l i ≠ i) :
    i < downSmallest compare l i ∧ downSmallest compare l i < l.length := by
  unfold downSmallest at h ⊢
  dsimp only at h ⊢
  split_ifs at h ⊢ with h1 h2 h2 <;>
    first
      | exact ⟨by omega, h2.1⟩
      | exact ⟨by omega, h1.1⟩
      | exact absurd rfl h

/-- Swapping two positions keeps the length of the slice. -/
def swapIdx_length {T : Type} [Inhabited T] (l : List T) (i j : Nat) :
    (swapIdx l i j).length = l.length := by
  simp [swapIdx]

/-- The loop of `downHeap` of `heap.go`: repeatedly pick the smaller
child; stop when neither child compares smaller, else swap with it and
continue from its position. -/
def downHeapList {T : Type} [Inhabited T] (compare : T → T → Int)
    (l : List T) (i : Nat) : List T :=
  let smallest := downSmallest compare l i
  if smallest = i then l
  else downHeapList compare (swapIdx l i smallest) smallest
termination_by l.length - i
decreasing_by
  rename_i hne
  have hlt := downSmallest_lt compare l i hne
  have hlen := swapIdx_length l i (downSmallest compare l i)
  omega

/-- Insert of `heap.go`: append at the end, then up-heap from the last
index. -/
def Heap.Insert {T : Type} [Inhabited T] (h : Heap T) (element : T) : Heap T :=
  let els := h.elements ++ [element]
  { h with elements := upHeapList h.compare els (els.length - 1) }

/-- Remove of `heap.go`: on an empty heap, return the zero value and the
error `"empty heap"`; otherwise capture the root, move the last element
into index 0, shrink by one, down-heap from the root, and return the
captured root.  The returned pair carries Go's `(T, error)` result as an
`Except`, and the mutated receiver. -/
def Heap.Remove {T : Type} [Inhabited T] (h : Heap T) : Except String T × Heap T :=
  if h.Size = 0 then (Except.error "empty heap", h)
  else
    let element := geti h.elements 0
    let shrunk := (h.elements.set 0 (geti h.elements (h.Size - 1))).take (h.Size - 1)
    (Except.ok element, { h with elements := downHeapList h.compare shrunk 0 })

/-- Elements of `heap.go`. -/
def Heap.Elements {T : Type} (h : Heap T) : List T :=
  h.elements

/-- Peek of `heap.go`: the root element, or the error `"empty heap"`. -/
def Heap.Peek {T : Type} [Inhabited T] (h : Heap T) : Except String T :=
  if h.Size = 0 then Except.error "empty heap"
  else Except.ok (geti h.elements 0)

/-- Comparator of `heap.go`. -/
def Heap.Comparator {T : Type} (h : Heap T) : T → T → Int :=
  h.compare

/-- Down-heap keeps the length of the slice. -/
def downHeapList_length {T : Type} [Inhabited T] (compare : T → T → Int)
    (l : List T) (i : Nat) : (downHeapList compare l i).length = l.length := by
  rw [downHeapList]
  split
  · rfl
  · rw [downHeapList_length, swapIdx_length]
termination_by l.length - i
decreasing_by
  rename_i hne
  have hlt := downSmallest_lt compare l i hne
  have hlen := swapIdx_length l i (downSmallest compare l i)
  omega

/-- Calling `Remove` until the heap reports empty, collecting the removed
roots in order. -/
def drainHeap {T : Type} [Inhabited T] (h : Heap T) : List T :=
  match hr : h.Remove with
  | (Except.error _, _) => []
  | (Except.ok x, rest) => x :: drainHeap rest
termination_by h.Size
decreasing_by
  simp only [Heap.Remove] at hr
  split at hr
  · simp at hr
  · rename_i hsz
    injection hr with h1 h2
    subst h2
    simp only [Heap.Size] at hsz ⊢
    rw [downHeapList_length]
    simp only [List.length_take, List.length_set]
    omega

end heap

namespace priorityqueue

/-- The `prioritized` pair of `priority_queue.go`: a value and its Go
`int` priority. -/
structure prioritized (T : Type) where
  value : T
  priority : Int
deriving DecidableEq

instance {T : Type} [Inhabited T] : Inhabited (prioritized T) :=
  ⟨{ value := default, priority := 0 }⟩

/-- The comparator bound by `NewMinPriorityQueue`:
`a.priority - b.priority` in Go `int` arithmetic. -/
def minCompare {T : Type} (a b : prioritized T) : Int :=
  goIntSub a.priority b.priority

/-- The comparator bound by `NewMaxPriorityQueue`:
`b.priority - a.priority` in Go `int` arithmetic. -/
def maxCompare {T : Type} (a b : prioritized T) : Int :=
  goIntSub b.priority a.priority

/-- The priority queue struct of `priority_queue.go`. -/
structure PriorityQueue (T : Type) where
  heap : heap.Heap (prioritized T)

/-- NewMinPriorityQueue of `priority_queue.go`. -/
def NewMinPriorityQueue (T : Type) : PriorityQueue T :=
  { heap := heap.NewGenericHeap minCompare }

/-- NewMaxPriorityQueue of `priority_queue.go`. -/
def NewMaxPriorityQueue (T : Type) : PriorityQueue T :=
  { heap := heap.NewGenericHeap maxCompare }

/-- Enqueue of `priority_queue.go`. -/
def PriorityQueue.Enqueue {T : Type} [Inhabited T] (pq : PriorityQueue T)
    (value : T) (priority : Int) : PriorityQueue T :=
  { heap := pq.heap.Insert { value := value, priority := priority } }

/-- Dequeue of `priority_queue.go`: delegate to the heap's `Remove`,
propagate its error unchanged, otherwise return only the `value`
component. -/
def PriorityQueue.Dequeue {T : Type} [Inhabited T] (pq : PriorityQueue T) :
    Except String T × PriorityQueue T :=
  match pq.heap.Remove with
  | (Except.error e, h) => (Except.error e, { heap := h })
  | (Except.ok item, h) => (Except.ok item.value, { heap := h })

/-- Peek of `priority_queue.go`. -/
def PriorityQueue.Peek {T : Type} [Inhabited T] (pq : PriorityQueue T) :
    Except String T :=
  match pq.heap.Peek with
  | Except.error e => Except.error e
  | Except.ok item => Except.ok item.value

/-- Size of `priority_queue.go`. -/
def PriorityQueue.Size {T : Type} (pq : PriorityQueue T) : Nat :=
  pq.heap.Size

/-- IsEmpty of `priority_queue.go`. -/
def PriorityQueue.IsEmpty {T : Type} (pq : PriorityQueue T) : Bool :=
  pq.Size = 0

/-- Clear of `priority_queue.go`: a fresh generic heap built with the
comparator obtained from the old heap's accessor. -/
def PriorityQueue.Clear {T : Type} (pq : PriorityQueue T) : PriorityQueue T :=
  { heap := heap.NewGenericHeap pq.heap.Comparator }

end priorityqueue

/-- The heap property exactly as the documentation states it: whenever the
child index `2i+1` or `2i+2` is inside the element sequence, the element
at `i` compares at most `0` against the element at that child index. -/
def heapInv {T : Type} [Inhabited T] (compare : T → T → Int) (l : List T) : Prop :=
  ∀ i c : Nat, c < l.length → (c = 2 * i + 1 ∨ c = 2 * i + 2) →
    compare (geti l i) (geti l c) ≤ 0

/-- The same property indexed from the child side: every non-root index
compares at least `0` against its parent `(c-1)/2`. -/
def parentInv {T : Type} [Inhabited T] (compare : T → T → Int) (l : List T) : Prop :=
  ∀ c : Nat, 0 < c → c < l.length →
    compare (geti l ((c - 1) / 2)) (geti l c) ≤ 0

/-- A comparator whose sign encodes a total order: comparisons `≤ 0` are
transitive, and the sign is antisymmetric under swapping the arguments. -/
structure IsTotalCmp {T : Type} (compare : T → T → Int) : Prop where
  le_trans : ∀ a b c, compare a b ≤ 0 → compare b c ≤ 0 → compare a c ≤ 0
  sign_flip : ∀ a b, 0 < compare a b ↔ compare b a < 0

/-- Heap states reachable from the freshly constructed heap by any
sequence of `Insert` and `Remove` calls. -/
inductive Reachable {T : Type} [Inhabited T] (compare : T → T → Int) :
    heap.Heap T → Prop where
  | init : Reachable compare (heap.NewGenericHeap compare)
  | insert {h : heap.Heap T} (x : T) :
      Reachable compare h → Reachable compare (h.Insert x)
  | remove {h : heap.Heap T} :
      Reachable compare h → Reachable compare h.Remove.2

/-- The invariant carried by the up-heap loop while the entry at `i` is
being sifted: every other non-root entry sits below its parent, and the
children of `i` (if any) already sit below the parent of `i`. -/
def upState {T : Type} [Inhabited T] (compare : T → T → Int)
    (l : List T) (i : Nat) : Prop :=
  (∀ c : Nat, 0 < c → c < l.length → c ≠ i →
      compare (geti l ((c - 1) / 2)) (geti l c) ≤ 0)
  ∧ (∀ c : Nat, c < l.length → (c = 2 * i + 1 ∨ c = 2 * i + 2) → 0 < i →
      compare (geti l ((i - 1) / 2)) (geti l c) ≤ 0)

/-- The invariant carried by the down-heap loop while the entry at `i` is
being sifted: every edge whose parent is not `i` is ordered, and the
children of `i` (if any) sit below the parent of `i` once `i` has left
the root. -/
def downState {T : Type} [Inhabited T] (compare : T → T → Int)
    (l : List T) (i : Nat) : Prop :=
  (∀ c : Nat, 0 < c → c < l.length → (c - 1) / 2 ≠ i →
      compare (geti l ((c - 1) / 2)) (geti l c) ≤ 0)
  ∧ (0 < i → ∀ c : Nat, c < l.length → (c = 2 * i + 1 ∨ c = 2 * i + 2) →
      compare (geti l ((i - 1) / 2)) (geti l c) ≤ 0)

/-- C4: inserting 44, 29, 58, 2, 98, 11, 65, 3, 68, 99 one at a time into
a freshly constructed min-heap yields, after each insertion, exactly the
documented array layouts as observed through the `Elements` accessor. -/
theorem minheap_insert_layouts :
    ((heap.NewMinHeap intComparator).Insert 44).Elements = [44]
    ∧ (((heap.NewMinHeap intComparator).Insert 44).Insert 29).Elements = [29, 44]
    ∧ ((((heap.NewMinHeap intComparator).Insert 44).Insert 29).Insert 58).Elements
        = [29, 44, 58]
    ∧ (((((heap.NewMinHeap intComparator).Insert 44).Insert 29).Insert 58).Insert 2).Elements
        = [2, 29, 58, 44]
    ∧ ((((((heap.NewMinHeap intComparator).Insert 44).Insert 29).Insert 58).Insert 2).Insert
        98).Elements = [2, 29, 58, 44, 98]
    ∧ (((((((heap.NewMinHeap intComparator).Insert 44).Insert 29).Insert 58).Insert 2).Insert
        98).Insert 11).Elements = [2, 29, 11, 44, 98, 58]
    ∧ ((((((((heap.NewMinHeap intComparator).Insert 44).Insert 29).Insert 58).Insert 2).Insert
        98).Insert 11).Insert 65).Elements = [2, 29, 11, 44, 98, 58, 65]
    ∧ (((((((((heap.NewMinHeap intComparator).Insert 44).Insert 29).Insert 58).Insert 2).Insert
        98).Insert 11).Insert 65).Insert 3).Elements = [2, 3, 11, 29, 98, 58, 65, 44]
    ∧ ((((((((((heap.NewMinHeap intComparator).Insert 44).Insert 29).Insert 58).Insert 2).Insert
        98).Insert 11).Insert 65).Insert 3).Insert 68).Elements
        = [2, 3, 11, 29, 98, 58, 65, 44, 68]
    ∧ (((((((((((heap.NewMinHeap intComparator).Insert 44).Insert 29).Insert 58).Insert 2).Insert
        98).Insert 11).Insert 65).Insert 3).Insert 68).Insert 99).Elements
        = [2, 3, 11, 29, 98, 58, 65, 44, 68, 99] := by
  have s1 : (heap.NewMinHeap intComparator).Insert 44
      = { elements := [44], compare := intComparator } := by
    simp +decide [heap.NewMinHeap, heap.Heap.Insert, heap.upHeapList, swapIdx, geti, intComparator]
  have s2 : ({ elements := [44], compare := intComparator } : heap.Heap Int).Insert 29
      = { elements := [29, 44], compare := intComparator } := by
    simp +decide [heap.Heap.Insert, heap.upHeapList, swapIdx, geti, intComparator]
  have s3 : ({ elements := [29, 44], compare := intComparator } : heap.Heap Int).Insert 58
      = { elements := [29, 44, 58], compare := intComparator } := by
    simp +decide [heap.Heap.Insert, heap.upHeapList, swapIdx, geti, intComparator]
  have s4 : ({ elements := [29, 44, 58], compare := intComparator } : heap.Heap Int).Insert 2
      = { elements := [2, 29, 58, 44], compare := intComparator } := by
    simp +decide [heap.Heap.Insert, heap.upHeapList, swapIdx, geti, intComparator]
  have s5 : ({ elements := [2, 29, 58, 44], compare := intComparator } : heap.Heap Int).Insert 98
      = { elements := [2, 29, 58, 44, 98], compare := intComparator } := by
    simp +decide [heap.Heap.Insert, heap.upHeapList, swapIdx, geti, intComparator]
  have s6 : ({ elements := [2, 29, 58, 44, 98], compare := intComparator } : heap.Heap Int).Insert 11
      = { elements := [2, 29, 11, 44, 98, 58], compare := intComparator } := by
    simp +decide [heap.Heap.Insert, heap.upHeapList, swapIdx, geti, intComparator]
  have s7 : ({ elements := [2, 29, 11, 44, 98, 58], compare := intComparator } : heap.Heap Int).Insert 65
      = { elements := [2, 29, 11, 44, 98, 58, 65], compare := intComparator } := by
    simp +decide [heap.Heap.Insert, heap.upHeapList, swapIdx, geti, intComparator]
  have s8 : ({ elements := [2, 29, 11, 44, 98, 58, 65], compare := intComparator } : heap.Heap Int).Insert 3
      = { elements := [2, 3, 11, 29, 98, 58, 65, 44], compare := intComparator } := by
    simp +decide [heap.Heap.Insert, heap.upHeapList, swapIdx, geti, intComparator]
  have s9 : ({ elements := [2, 3, 11, 29, 98, 58, 65, 44], compare := intComparator } : heap.Heap Int).Insert 68
      = { elements := [2, 3, 11, 29, 98, 58, 65, 44, 68], compare := intComparator } := by
    simp +decide [heap.Heap.Insert, heap.upHeapList, swapIdx, geti, intComparator]
  have s10 : ({ elements := [2, 3, 11, 29, 98, 58, 65, 44, 68], compare := intComparator } :
        heap.Heap Int).Insert 99
      = { elements := [2, 3, 11, 29, 98, 58, 65, 44, 68, 99], compare := intComparator } := by
    simp +decide [heap.Heap.Insert, heap.upHeapList, swapIdx, geti, intComparator]
  rw [s1, s2, s3, s4, s5, s6, s7, s8, s9, s10]
  simp [heap.Heap.Elements]

/-! ### Helper facts about total-order comparators -/

/-- The test comparator on integers encodes a total order. -/
theorem intComparator_total : IsTotalCmp intComparator := by
  refine ⟨?_, ?_⟩
  · intro a b c h1 h2
    unfold intComparator at *
    split_ifs at * <;> omega
  · intro a b
    unfold intComparator
    split_ifs <;> omega

/-- Composing a total-order comparator with a projection yields a
total-order comparator. -/
theorem totalcmp_comp {T U : Type} (f : T → U) (cmp : U → U → Int)
    (hc : IsTotalCmp cmp) : IsTotalCmp (fun a b => cmp (f a) (f b)) := by
  refine ⟨?_, ?_⟩
  · intro a b c h1 h2
    exact hc.le_trans _ _ _ h1 h2
  · intro a b
    exact hc.sign_flip _ _

/-- Swapping the arguments of a total-order comparator yields a
total-order comparator (the max-heap construction). -/
theorem totalcmp_flip {T : Type} (cmp : T → T → Int) (hc : IsTotalCmp cmp) :
    IsTotalCmp (fun a b => cmp b a) := by
  refine ⟨?_, ?_⟩
  · intro a b c h1 h2
    exact hc.le_trans _ _ _ h2 h1
  · intro a b
    exact hc.sign_flip _ _

/-- A comparator value of at most zero one way forbids a strictly
negative value the other way round. -/
theorem totalcmp_le_of_not_lt {T : Type} {cmp : T → T → Int}
    (hc : IsTotalCmp cmp) {a b : T} (h : ¬ cmp a b < 0) : cmp b a ≤ 0 := by
  have hm := mt (hc.sign_flip b a).mp h
  omega

/-- A strictly positive comparison flips to a non-positive one. -/
theorem totalcmp_le_of_gt {T : Type} {cmp : T → T → Int}
    (hc : IsTotalCmp cmp) {a b : T} (h : 0 < cmp a b) : cmp b a ≤ 0 :=
  le_of_lt ((hc.sign_flip a b).mp h)

/-- Every element compares zero against itself. -/
theorem totalcmp_self {T : Type} {cmp : T → T → Int}
    (hc : IsTotalCmp cmp) (a : T) : cmp a a = 0 := by
  have h1 := hc.sign_flip a a
  omega

/-- A 64-bit in-range integer is unchanged by the wrap. -/
theorem intWrap64_eq_self (x : Int) (h : inRange64 x) : intWrap 64 x = x := by
  obtain ⟨h1, h2⟩ := h
  unfold intWrap
  have e1 : (2 : Int) ^ (64 - 1) = 9223372036854775808 := by norm_num
  have e2 : (2 : Int) ^ 64 = 18446744073709551616 := by norm_num
  have e3 : (2 : Int) ^ 63 = 9223372036854775808 := by norm_num
  rw [e3] at h1 h2
  rw [e1, e2]
  omega

/-! ### Concrete-scenario and local-step claims -/

/-- C5: on a min-priority queue, after Enqueue("low",10),
Enqueue("medium",5), Enqueue("high",1), three successive Dequeue calls
return "high", "medium", "low" with no error, and a fourth Dequeue fails
with the empty condition. -/
theorem pq_min_scenario :
    (((((priorityqueue.NewMinPriorityQueue String).Enqueue "low" 10).Enqueue
        "medium" 5).Enqueue "high" 1).Dequeue).1 = Except.ok "high"
    ∧ ((((((priorityqueue.NewMinPriorityQueue String).Enqueue "low" 10).Enqueue
        "medium" 5).Enqueue "high" 1).Dequeue).2.Dequeue).1 = Except.ok "medium"
    ∧ (((((((priorityqueue.NewMinPriorityQueue String).Enqueue "low" 10).Enqueue
        "medium" 5).Enqueue "high" 1).Dequeue).2.Dequeue).2.Dequeue).1 = Except.ok "low"
    ∧ ((((((((priorityqueue.NewMinPriorityQueue String).Enqueue "low" 10).Enqueue
        "medium" 5).Enqueue "high" 1).Dequeue).2.Dequeue).2.Dequeue).2.Dequeue).1
        = Except.error "empty heap" := by
  have e1 : ((priorityqueue.NewMinPriorityQueue String).Enqueue "low" 10)
      = { heap := { elements := [{ value := "low", priority := 10 }],
                    compare := priorityqueue.minCompare } } := by
    simp +decide [priorityqueue.NewMinPriorityQueue, priorityqueue.PriorityQueue.Enqueue,
      heap.NewGenericHeap, heap.Heap.Insert, heap.upHeapList, swapIdx, geti]
  have e2 : (priorityqueue.PriorityQueue.mk
        { elements := [{ value := "low", priority := 10 }],
          compare := priorityqueue.minCompare } :
        priorityqueue.PriorityQueue String).Enqueue "medium" 5
      = { heap := { elements := [{ value := "medium", priority := 5 },
                                 { value := "low", priority := 10 }],
                    compare := priorityqueue.minCompare } } := by
    simp +decide [priorityqueue.PriorityQueue.Enqueue, heap.Heap.Insert,
      heap.upHeapList, swapIdx, geti, priorityqueue.minCompare, goIntSub, intWrap]
  have e3 : (priorityqueue.PriorityQueue.mk
        { elements := [{ value := "medium", priority := 5 },
                       { value := "low", priority := 10 }],
          compare := priorityqueue.minCompare } :
        priorityqueue.PriorityQueue String).Enqueue "high" 1
      = { heap := { elements := [{ value := "high", priority := 1 },
                                 { value := "low", priority := 10 },
                                 { value := "medium", priority := 5 }],
                    compare := priorityqueue.minCompare } } := by
    simp +decide [priorityqueue.PriorityQueue.Enqueue, heap.Heap.Insert,
      heap.upHeapList, swapIdx, geti, priorityqueue.minCompare, goIntSub, intWrap]
  have d1 : (priorityqueue.PriorityQueue.mk
        { elements := [{ value := "high", priority := 1 },
                       { value := "low", priority := 10 },
                       { value := "medium", priority := 5 }],
          compare := priorityqueue.minCompare } :
        priorityqueue.PriorityQueue String).Dequeue
      = (Except.ok "high",
         { heap := { elements := [{ value := "medium", priority := 5 },
                                  { value := "low", priority := 10 }],
                     compare := priorityqueue.minCompare } }) := by
    simp +decide [priorityqueue.PriorityQueue.Dequeue, heap.Heap.Remove, heap.Heap.Size,
      heap.downHeapList, heap.downSmallest, swapIdx, geti,
      priorityqueue.minCompare, goIntSub, intWrap]
  have d2 : (priorityqueue.PriorityQueue.mk
        { elements := [{ value := "medium", priority := 5 },
                       { value := "low", priority := 10 }],
          compare := priorityqueue.minCompare } :
        priorityqueue.PriorityQueue String).Dequeue
      = (Except.ok "medium",
         { heap := { elements := [{ value := "low", priority := 10 }],
                     compare := priorityqueue.minCompare } }) := by
    simp +decide [priorityqueue.PriorityQueue.Dequeue, heap.Heap.Remove, heap.Heap.Size,
      heap.downHeapList, heap.downSmallest, swapIdx, geti,
      priorityqueue.minCompare, goIntSub, intWrap]
  have d3 : (priorityqueue.PriorityQueue.mk
        { elements := [{ value := "low", priority := 10 }],
          compare := priorityqueue.minCompare } :
        priorityqueue.PriorityQueue String).Dequeue
      = (Except.ok "low",
         { heap := { elements := ([] : List (priorityqueue.prioritized String)),
                     compare := priorityqueue.minCompare } }) := by
    simp +decide [priorityqueue.PriorityQueue.Dequeue, heap.Heap.Remove, heap.Heap.Size,
      heap.downHeapList, heap.downSmallest, swapIdx, geti,
      priorityqueue.minCompare, goIntSub, intWrap]
  have d4 : (priorityqueue.PriorityQueue.mk
        { elements := ([] : List (priorityqueue.prioritized String)),
          compare := priorityqueue.minCompare } :
        priorityqueue.PriorityQueue String).Dequeue
      = (Except.error "empty heap",
         { heap := { elements := ([] : List (priorityqueue.prioritized String)),
                     compare := priorityqueue.minCompare } }) := by
    simp +decide [priorityqueue.PriorityQueue.Dequeue, heap.Heap.Remove, heap.Heap.Size]
  rw [e1, e2, e3, d1]
  rw [d2, d3, d4]
  exact ⟨rfl, rfl, rfl, rfl⟩

/-- C6: Remove() and Peek() on a heap of size 0 both return the
empty-heap error rather than a valid element, and neither changes the
element sequence or the size. -/
theorem remove_peek_on_empty {T : Type} [Inhabited T] (h : heap.Heap T)
    (hsz : h.Size = 0) :
    h.Remove = (Except.error "empty heap", h)
    ∧ h.Peek = Except.error "empty heap"
    ∧ h.Remove.2.Elements = h.Elements
    ∧ h.Remove.2.Size = h.Size := by
  have hrem : h.Remove = (Except.error "empty heap", h) := by
    simp [heap.Heap.Remove, hsz]
  refine ⟨hrem, ?_, by rw [hrem], by rw [hrem]⟩
  simp [heap.Heap.Peek, hsz]

/-- C6 witness: the freshly constructed heap has size 0 and satisfies the
conclusion of the empty-heap theorem. -/
theorem remove_peek_on_empty_witness :
    (heap.NewGenericHeap intComparator).Size = 0
    ∧ ((heap.NewGenericHeap intComparator).Remove
        = (Except.error "empty heap", heap.NewGenericHeap intComparator)
      ∧ (heap.NewGenericHeap intComparator).Peek = Except.error "empty heap"
      ∧ (heap.NewGenericHeap intComparator).Remove.2.Elements
          = (heap.NewGenericHeap intComparator).Elements
      ∧ (heap.NewGenericHeap intComparator).Remove.2.Size
          = (heap.NewGenericHeap intComparator).Size) :=
  ⟨rfl, remove_peek_on_empty (heap.NewGenericHeap intComparator) rfl⟩

/-- C7 counterexample: Dequeue on an empty min-priority queue fails with
the heap's propagated message "empty heap", not with "queue empty" as the
claim states. -/
theorem dequeue_error_message_cex :
    ((priorityqueue.NewMinPriorityQueue String).Dequeue).1
      = Except.error "empty heap"
    ∧ ((priorityqueue.NewMinPriorityQueue String).Dequeue).1
      ≠ Except.error "queue empty" := by
  have h1 : ((priorityqueue.NewMinPriorityQueue String).Dequeue).1
      = Except.error "empty heap" := rfl
  refine ⟨h1, ?_⟩
  rw [h1]
  intro hcon
  injection hcon with hs
  exact absurd hs (by decide)

/-- C7 amended: Dequeue on an empty queue fails with the error propagated
unchanged from the heap's Remove, whose message is "empty heap"; on a
non-empty queue it returns only the value component of the removed pair. -/
theorem dequeue_propagates_heap_error {T : Type} [Inhabited T]
    (pq : priorityqueue.PriorityQueue T) :
    (pq.Size = 0 → pq.Dequeue = (Except.error "empty heap", pq))
    ∧ (∀ (x : priorityqueue.prioritized T)
         (h2 : heap.Heap (priorityqueue.prioritized T)),
        pq.heap.Remove = (Except.ok x, h2) →
        pq.Dequeue = (Except.ok x.value, { heap := h2 })) := by
  constructor
  · intro hsz
    have hrem : pq.heap.Remove = (Except.error "empty heap", pq.heap) := by
      simp [heap.Heap.Remove, show pq.heap.Size = 0 from hsz]
    simp [priorityqueue.PriorityQueue.Dequeue, hrem]
  · intro x h2 hrem
    simp [priorityqueue.PriorityQueue.Dequeue, hrem]

/-- C7 witness: the amended behaviour at two concrete queues, one empty
and one with a single entry. -/
theorem dequeue_propagates_heap_error_witness :
    (priorityqueue.NewMinPriorityQueue String).Dequeue
      = (Except.error "empty heap", priorityqueue.NewMinPriorityQueue String)
    ∧ (priorityqueue.PriorityQueue.mk
        { elements := [{ value := "a", priority := 1 }],
          compare := priorityqueue.minCompare } :
        priorityqueue.PriorityQueue String).Dequeue
      = (Except.ok "a",
         { heap := { elements := ([] : List (priorityqueue.prioritized String)),
                     compare := priorityqueue.minCompare } }) := by
  constructor
  · exact (dequeue_propagates_heap_error (priorityqueue.NewMinPriorityQueue String)).1 rfl
  · refine (dequeue_propagates_heap_error _).2 { value := "a", priority := 1 }
      { elements := ([] : List (priorityqueue.prioritized String)),
        compare := priorityqueue.minCompare } ?_
    simp +decide [heap.Heap.Remove, heap.Heap.Size, heap.downHeapList,
      heap.downSmallest, swapIdx, geti]

/-- C8: Clear() leaves the queue empty, with an internal heap built with
exactly the comparator of the heap it replaces, so a cleared min-queue is
the freshly constructed min-queue and a cleared max-queue is the freshly
constructed max-queue. -/
theorem clear_preserves_comparator {T : Type}
    (pq : priorityqueue.PriorityQueue T) :
    pq.Clear = { heap := heap.NewGenericHeap pq.heap.Comparator }
    ∧ pq.Clear.Size = 0
    ∧ pq.Clear.heap.compare = pq.heap.compare
    ∧ (pq.heap.compare = priorityqueue.minCompare →
        pq.Clear = priorityqueue.NewMinPriorityQueue T)
    ∧ (pq.heap.compare = priorityqueue.maxCompare →
        pq.Clear = priorityqueue.NewMaxPriorityQueue T) := by
  refine ⟨rfl, rfl, rfl, ?_, ?_⟩
  · intro hcmp
    simp [priorityqueue.PriorityQueue.Clear, heap.NewGenericHeap,
      heap.Heap.Comparator, hcmp, priorityqueue.NewMinPriorityQueue]
  · intro hcmp
    simp [priorityqueue.PriorityQueue.Clear, heap.NewGenericHeap,
      heap.Heap.Comparator, hcmp, priorityqueue.NewMaxPriorityQueue]

/-- C8 witness: clearing a min-queue holding one entry yields the freshly
constructed min-queue. -/
theorem clear_preserves_comparator_witness :
    ((priorityqueue.NewMinPriorityQueue Nat).Enqueue 7 3).Clear
      = priorityqueue.NewMinPriorityQueue Nat :=
  (clear_preserves_comparator ((priorityqueue.NewMinPriorityQueue Nat).Enqueue 7 3)).2.2.2.1 rfl

/-- C9: during down-heap, when both children exist, compare equal to each
other, and both compare smaller than the element being sifted down, the
swap performed is with the left child. -/
theorem downheap_tie_prefers_left {T : Type} [Inhabited T]
    (compare : T → T → Int) (hc : IsTotalCmp compare) (l : List T) (i : Nat)
    (hr : 2 * i + 2 < l.length)
    (heq : compare (geti l (2 * i + 1)) (geti l (2 * i + 2)) = 0)
    (hlc : compare (geti l (2 * i + 1)) (geti l i) < 0)
    (hrc : compare (geti l (2 * i + 2)) (geti l i) < 0) :
    heap.downHeapList compare l i
      = heap.downHeapList compare (swapIdx l i (2 * i + 1)) (2 * i + 1) := by
  have hnot : ¬ compare (geti l (2 * i + 2)) (geti l (2 * i + 1)) < 0 := by
    intro hcon
    have := (hc.sign_flip (geti l (2 * i + 1)) (geti l (2 * i + 2))).mpr hcon
    omega
  have hsm : heap.downSmallest compare l i = 2 * i + 1 := by
    unfold heap.downSmallest
    dsimp only
    split_ifs with h1 h2 h2 <;>
      first
        | rfl
        | exact absurd h2.2 hnot
        | exact absurd ⟨by omega, hlc⟩ h1
  rw [heap.downHeapList]
  simp only [hsm]
  rw [if_neg (show ¬ 2 * i + 1 = i by omega)]

/-- C9 witness: a three-entry heap whose two children carry equal keys
smaller than the root; the first swap goes to index 1. -/
theorem downheap_tie_prefers_left_witness :
    (2 * 0 + 2 < ([((0 : Nat), (5 : Int)), (1, 3), (2, 3)] : List (Nat × Int)).length)
    ∧ heap.downHeapList (fun a b : Nat × Int => intComparator a.2 b.2)
        [((0 : Nat), (5 : Int)), (1, 3), (2, 3)] 0
      = heap.downHeapList (fun a b : Nat × Int => intComparator a.2 b.2)
        (swapIdx [((0 : Nat), (5 : Int)), (1, 3), (2, 3)] 0 (2 * 0 + 1)) (2 * 0 + 1) :=
  ⟨by decide,
   downheap_tie_prefers_left (fun a b : Nat × Int => intComparator a.2 b.2)
     (totalcmp_comp Prod.snd intComparator intComparator_total)
     [((0 : Nat), (5 : Int)), (1, 3), (2, 3)] 0
     (by decide) (by decide) (by decide) (by decide)⟩

/-- C10: the min-queue comparator is the 64-bit machine subtraction of
the priorities (and the max-queue comparator its argument-swapped form);
there are in-range priorities p < q whose difference overflows so the
comparator answers positive, and for every pair whose difference is
representable the sign of the comparator encodes the true order. -/
theorem pq_comparators_overflow :
    (∀ a b : priorityqueue.prioritized Unit,
        priorityqueue.minCompare a b = intWrap 64 (a.priority - b.priority)
        ∧ priorityqueue.maxCompare a b = intWrap 64 (b.priority - a.priority))
    ∧ (∃ p q : Int, inRange64 p ∧ inRange64 q ∧ p < q
        ∧ 0 < priorityqueue.minCompare
            { value := (), priority := p } { value := (), priority := q })
    ∧ (∀ p q : Int, inRange64 (p - q) →
        (priorityqueue.minCompare
            { value := (), priority := p } { value := (), priority := q } < 0 ↔ p < q)
        ∧ (0 < priorityqueue.minCompare
            { value := (), priority := p } { value := (), priority := q } ↔ q < p)
        ∧ (priorityqueue.minCompare
            { value := (), priority := p } { value := (), priority := q } = 0 ↔ p = q)) := by
  refine ⟨fun a b => ⟨rfl, rfl⟩, ⟨-(2 ^ 63), 1, ?_, ?_, by norm_num, ?_⟩, ?_⟩
  · constructor <;> norm_num [inRange64]
  · constructor <;> norm_num [inRange64]
  · norm_num [priorityqueue.minCompare, goIntSub, intWrap]
  · intro p q hrange
    have hw := intWrap64_eq_self (p - q) hrange
    simp only [priorityqueue.minCompare, goIntSub, hw]
    refine ⟨?_, ?_, ?_⟩ <;> omega

/-- C10 witness: the in-range correctness conjunct applied at the pair
(3, 5). -/
theorem pq_comparators_overflow_witness :
    inRange64 ((3 : Int) - 5)
    ∧ (priorityqueue.minCompare
        { value := (), priority := (3 : Int) } { value := (), priority := 5 } < 0
        ↔ (3 : Int) < 5) :=
  ⟨by norm_num [inRange64],
   (pq_comparators_overflow.2.2 3 5 (by norm_num [inRange64])).1⟩

/-- C3 counterexample: inserting a second element whose comparator value
against the root is exactly 0 does swap it above its parent — `Elements`
ends as [("b",5), ("a",5)], the newly inserted equal element on top —
contradicting the claim that an element equal to its parent is not
swapped above it. -/
theorem upheap_swaps_on_equal_cex :
    (((heap.NewGenericHeap (priorityqueue.minCompare (T := String))).Insert
        { value := "a", priority := 5 }).Insert
        { value := "b", priority := 5 }).Elements
      = [{ value := "b", priority := 5 }, { value := "a", priority := 5 }]
    ∧ priorityqueue.minCompare (T := String)
        { value := "b", priority := 5 } { value := "a", priority := 5 } = 0 := by
  constructor
  · simp +decide [heap.NewGenericHeap, heap.Heap.Insert, heap.Heap.Elements,
      heap.upHeapList, swapIdx, geti, priorityqueue.minCompare, goIntSub, intWrap]
  · decide

/-- C3 amended: the sift-up loop swaps the element upward while it
compares less than OR EQUAL to its parent; it stops once it reaches
index 0 or its parent compares strictly less than it (an element that
compares equal to its parent IS swapped above it). -/
theorem upheap_loop_behavior {T : Type} [Inhabited T] (compare : T → T → Int)
    (l : List T) (i : Nat) :
    heap.upHeapList compare l 0 = l
    ∧ (0 < i → 0 < compare (geti l i) (geti l ((i - 1) / 2)) →
        heap.upHeapList compare l i = l)
    ∧ (0 < i → compare (geti l i) (geti l ((i - 1) / 2)) ≤ 0 →
        heap.upHeapList compare l i
          = heap.upHeapList compare (swapIdx l i ((i - 1) / 2)) ((i - 1) / 2)) := by
  refine ⟨?_, ?_, ?_⟩
  · rw [heap.upHeapList]
    simp
  · intro hi hgt
    rw [heap.upHeapList, if_neg (show ¬ i = 0 by omega)]
    dsimp only
    rw [if_pos hgt]
  · intro hi hle
    rw [heap.upHeapList, if_neg (show ¬ i = 0 by omega)]
    dsimp only
    rw [if_neg (show ¬ compare (geti l i) (geti l ((i - 1) / 2)) > 0 by omega)]

/-- C3 witness: the amended loop equations at the concrete slice [5, 3]
with the new element at index 1. -/
theorem upheap_loop_behavior_witness :
    (0 < 1 ∧ intComparator (geti [(5 : Int), 3] 1) (geti [(5 : Int), 3] ((1 - 1) / 2)) ≤ 0)
    ∧ heap.upHeapList intComparator [(5 : Int), 3] 1
      = heap.upHeapList intComparator (swapIdx [(5 : Int), 3] 1 ((1 - 1) / 2)) ((1 - 1) / 2) :=
  ⟨⟨by decide, by decide⟩,
   (upheap_loop_behavior intComparator [(5 : Int), 3] 1).2.2 (by decide) (by decide)⟩

/-! ### Index and swap lemmas -/

/-- In-bounds `geti` agrees with list indexing. -/
theorem geti_eq_getElem {T : Type} [Inhabited T] (l : List T) (i : Nat)
    (h : i < l.length) : geti l i = l[i] :=
  List.getD_eq_getElem l default h

/-- Appending on the right does not change in-bounds reads. -/
theorem geti_append {T : Type} [Inhabited T] (l : List T) (x : T) (j : Nat)
    (h : j < l.length) : geti (l ++ [x]) j = geti l j :=
  List.getD_append l [x] default j h

/-- Reading the freshly appended element. -/
theorem geti_append_last {T : Type} [Inhabited T] (l : List T) (x : T) :
    geti (l ++ [x]) l.length = x := by
  unfold geti
  rw [List.getD_eq_getElem (l ++ [x]) default (by simp)]
  simp

/-- Reading a set position. -/
theorem geti_set_self {T : Type} [Inhabited T] (l : List T) (i : Nat) (v : T)
    (h : i < l.length) : geti (l.set i v) i = v := by
  unfold geti
  rw [List.getD_eq_getElem?_getD, List.getElem?_set_eq_of_lt v h]
  rfl

/-- Reading away from a set position. -/
theorem geti_set_ne {T : Type} [Inhabited T] (l : List T) (i k : Nat) (v : T)
    (h : i ≠ k) : geti (l.set i v) k = geti l k := by
  unfold geti
  rw [List.getD_eq_getElem?_getD, List.getD_eq_getElem?_getD,
    List.getElem?_set_ne h]

/-- Reading inside the kept prefix of a `take`. -/
theorem geti_take {T : Type} [Inhabited T] (l : List T) (m k : Nat)
    (h : k < m) (hk : k < l.length) : geti (l.take m) k = geti l k := by
  rw [geti_eq_getElem _ _ (by simp; omega), geti_eq_getElem _ _ hk]
  rw [List.getElem_take]

/-- The swap target holds the old source value. -/
theorem geti_swap_snd {T : Type} [Inhabited T] (l : List T) (i j : Nat)
    (hj : j < l.length) : geti (swapIdx l i j) j = geti l i := by
  unfold swapIdx
  exact geti_set_self _ _ _ (by simp [hj])

/-- The swap source holds the old target value. -/
theorem geti_swap_fst {T : Type} [Inhabited T] (l : List T) (i j : Nat)
    (hi : i < l.length) (hne : i ≠ j) : geti (swapIdx l i j) i = geti l j := by
  unfold swapIdx
  rw [geti_set_ne _ _ _ _ (by omega)]
  exact geti_set_self _ _ _ hi

/-- Positions not involved in a swap are unchanged. -/
theorem geti_swap_other {T : Type} [Inhabited T] (l : List T) (i j k : Nat)
    (h1 : k ≠ i) (h2 : k ≠ j) : geti (swapIdx l i j) k = geti l k := by
  unfold swapIdx
  rw [geti_set_ne _ _ _ _ (by omega), geti_set_ne _ _ _ _ (by omega)]

/-- Overwriting position `k` with `x` and moving the overwritten value to
the head permutes the list with `x` placed at the head. -/
theorem set_head_perm {T : Type} [Inhabited T] :
    ∀ (t : List T) (k : Nat), k < t.length →
      ∀ x : T, (geti t k :: t.set k x).Perm (x :: t) := by
  intro t
  induction t with
  | nil => intro k hk; simp at hk
  | cons y u IH =>
    intro k hk x
    cases k with
    | zero =>
      simp only [geti, List.getD_cons_zero, List.set_cons_zero]
      exact List.Perm.swap x y u
    | succ k =>
      simp only [geti, List.getD_cons_succ, List.set_cons_succ]
      have hstep := IH k (by simpa using hk) x
      exact (List.Perm.swap y (geti u k) (u.set k x)).trans
        ((hstep.cons y).trans (List.Perm.swap x y u))

/-- Swapping two distinct in-bounds positions permutes the list. -/
theorem swapIdx_perm {T : Type} [Inhabited T] :
    ∀ (l : List T) (i j : Nat), i ≠ j → i < l.length → j < l.length →
      (swapIdx l i j).Perm l := by
  intro l
  induction l with
  | nil => intro i j _ hi _; simp at hi
  | cons a t IH =>
    intro i j hne hi hj
    match i, j with
    | 0, 0 => exact absurd rfl hne
    | 0, (k+1) =>
      have hk : k < t.length := by simpa using hj
      have hform : swapIdx (a :: t) 0 (k+1) = geti t k :: t.set k a := by
        unfold swapIdx
        simp only [geti, List.getD_cons_succ, List.getD_cons_zero, List.set_cons_zero,
          List.set_cons_succ]
      rw [hform]
      exact set_head_perm t k hk a
    | (m+1), 0 =>
      have hm : m < t.length := by simpa using hi
      have hform : swapIdx (a :: t) (m+1) 0 = geti t m :: t.set m a := by
        unfold swapIdx
        simp only [geti, List.getD_cons_succ, List.getD_cons_zero, List.set_cons_succ,
          List.set_cons_zero]
      rw [hform]
      exact set_head_perm t m hm a
    | (m+1), (k+1) =>
      have hform : swapIdx (a :: t) (m+1) (k+1) = a :: swapIdx t m k := by
        unfold swapIdx
        simp only [geti, List.getD_cons_succ, List.set_cons_succ]
      rw [hform]
      exact (IH m k (by omega) (by simpa using hi) (by simpa using hj)).cons a

/-- Up-heap keeps the length of the slice. -/
theorem upHeapList_length {T : Type} [Inhabited T] (compare : T → T → Int) :
    ∀ (i : Nat) (l : List T), (heap.upHeapList compare l i).length = l.length := by
  intro i
  induction i using Nat.strong_induction_on with
  | _ i IH =>
    intro l
    rw [heap.upHeapList]
    split
    · rfl
    · dsimp only
      split
      · rfl
      · rename_i h0 hcmp
        rw [IH _ (by have := Nat.div_le_self (i - 1) 2; omega), heap.swapIdx_length]

/-- Up-heap permutes the slice. -/
theorem upHeapList_perm {T : Type} [Inhabited T] (compare : T → T → Int) :
    ∀ (i : Nat) (l : List T), i < l.length →
      (heap.upHeapList compare l i).Perm l := by
  intro i
  induction i using Nat.strong_induction_on with
  | _ i IH =>
    intro l hi
    rw [heap.upHeapList]
    split
    · exact List.Perm.refl l
    · dsimp only
      split
      · exact List.Perm.refl l
      · rename_i h0 hcmp
        have hp : (i - 1) / 2 < i := by have := Nat.div_le_self (i - 1) 2; omega
        have hswap := swapIdx_perm l i ((i - 1) / 2) (by omega) hi (by omega)
        have hrec := IH _ hp (swapIdx l i ((i - 1) / 2))
          (by rw [heap.swapIdx_length]; omega)
        exact hrec.trans hswap

/-- Down-heap permutes the slice (fuel-indexed form). -/
theorem downHeapList_perm_fuel {T : Type} [Inhabited T] (compare : T → T → Int) :
    ∀ (n : Nat) (l : List T) (i : Nat), l.length - i ≤ n →
      (heap.downHeapList compare l i).Perm l := by
  intro n
  induction n with
  | zero =>
    intro l i hn
    rw [heap.downHeapList]
    split
    · exact List.Perm.refl l
    · rename_i hne
      have := heap.downSmallest_lt compare l i hne
      omega
  | succ n IH =>
    intro l i hn
    rw [heap.downHeapList]
    split
    · exact List.Perm.refl l
    · rename_i hne
      have hlt := heap.downSmallest_lt compare l i hne
      have hswap := swapIdx_perm l i (heap.downSmallest compare l i)
        (by omega) (by omega) (by omega)
      have hrec := IH (swapIdx l i (heap.downSmallest compare l i))
        (heap.downSmallest compare l i) (by rw [heap.swapIdx_length]; omega)
      exact hrec.trans hswap

/-- Down-heap permutes the slice. -/
theorem downHeapList_perm {T : Type} [Inhabited T] (compare : T → T → Int)
    (l : List T) (i : Nat) : (heap.downHeapList compare l i).Perm l :=
  downHeapList_perm_fuel compare l.length l i (by omega)

/-! ### The down-heap loop preserves the heap shape -/

/-- When the child-selection step stays at `i`, neither child compares
smaller than the entry at `i`. -/
theorem downSmallest_eq_self {T : Type} [Inhabited T] {compare : T → T → Int}
    {l : List T} {i : Nat} (h : heap.downSmallest compare l i = i) :
    (2 * i + 1 < l.length → ¬ compare (geti l (2 * i + 1)) (geti l i) < 0)
    ∧ (2 * i + 2 < l.length → ¬ compare (geti l (2 * i + 2)) (geti l i) < 0) := by
  unfold heap.downSmallest at h
  dsimp only at h
  split_ifs at h with h1 h2 h2
  · exact absurd h (by omega)
  · exact absurd h (by omega)
  · exact absurd h (by omega)
  · exact ⟨fun hlen hcmp => h1 ⟨hlen, hcmp⟩, fun hlen hcmp => h2 ⟨hlen, hcmp⟩⟩

/-- When the child-selection step moves, it picks an existing child that
compares at most the entry at `i` and at most the sibling (when the
sibling exists). -/
theorem downSmallest_spec {T : Type} [Inhabited T] {compare : T → T → Int}
    (hc : IsTotalCmp compare) {l : List T} {i : Nat}
    (h : heap.downSmallest compare l i ≠ i) :
    (heap.downSmallest compare l i = 2 * i + 1
      ∨ heap.downSmallest compare l i = 2 * i + 2)
    ∧ compare (geti l (heap.downSmallest compare l i)) (geti l i) ≤ 0
    ∧ ∀ o : Nat, (o = 2 * i + 1 ∨ o = 2 * i + 2) → o < l.length →
        o ≠ heap.downSmallest compare l i →
        compare (geti l (heap.downSmallest compare l i)) (geti l o) ≤ 0 := by
  unfold heap.downSmallest at h ⊢
  dsimp only at h ⊢
  split_ifs at h ⊢ with h1 h2 h2
  · refine ⟨Or.inr rfl, hc.le_trans _ _ _ (le_of_lt h2.2) (le_of_lt h1.2), ?_⟩
    intro o ho hol hne
    have hoeq : o = 2 * i + 1 := by omega
    rw [hoeq]
    exact le_of_lt h2.2
  · refine ⟨Or.inl rfl, le_of_lt h1.2, ?_⟩
    intro o ho hol hne
    have hoeq : o = 2 * i + 2 := by omega
    rw [hoeq]
    have hnlt : ¬ compare (geti l (2 * i + 2)) (geti l (2 * i + 1)) < 0 :=
      fun hcon => h2 ⟨by omega, hcon⟩
    exact totalcmp_le_of_not_lt hc hnlt
  · refine ⟨Or.inr rfl, le_of_lt h2.2, ?_⟩
    intro o ho hol hne
    have hoeq : o = 2 * i + 1 := by omega
    rw [hoeq]
    have hnlt : ¬ compare (geti l (2 * i + 1)) (geti l i) < 0 :=
      fun hcon => h1 ⟨by omega, hcon⟩
    exact hc.le_trans _ _ _ (le_of_lt h2.2) (totalcmp_le_of_not_lt hc hnlt)
  · exact absurd rfl h

/-- When the selection stays put, the down-heap state already gives the
heap shape. -/
theorem downState_stop {T : Type} [Inhabited T] {compare : T → T → Int}
    (hc : IsTotalCmp compare) {l : List T} {i : Nat}
    (heq : heap.downSmallest compare l i = i)
    (hs : downState compare l i) : parentInv compare l := by
  intro c hc0 hclen
  by_cases hq : (c - 1) / 2 = i
  · obtain ⟨g1, g2⟩ := downSmallest_eq_self heq
    have hch : c = 2 * i + 1 ∨ c = 2 * i + 2 := by omega
    rw [hq]
    rcases hch with h | h
    · rw [h] at hclen ⊢
      exact totalcmp_le_of_not_lt hc (g1 hclen)
    · rw [h] at hclen ⊢
      exact totalcmp_le_of_not_lt hc (g2 hclen)
  · exact hs.1 c hc0 hclen hq

/-- One swap of the down-heap loop re-establishes the loop state at the
chosen child. -/
theorem downState_step {T : Type} [Inhabited T] {compare : T → T → Int}
    (hc : IsTotalCmp compare) {l : List T} {i : Nat}
    (hne : heap.downSmallest compare l i ≠ i) (hs : downState compare l i) :
    downState compare (swapIdx l i (heap.downSmallest compare l i))
      (heap.downSmallest compare l i) := by
  obtain ⟨hgt, hslen⟩ := heap.downSmallest_lt compare l i hne
  obtain ⟨hch, hcmp, hother⟩ := downSmallest_spec hc hne
  set s := heap.downSmallest compare l i with hsdef
  have hilen : i < l.length := by omega
  have hps : (s - 1) / 2 = i := by omega
  constructor
  · intro c hc0 hclen hqne
    rw [heap.swapIdx_length] at hclen
    by_cases hcs : c = s
    · rw [hcs, hps]
      rw [geti_swap_fst l i s hilen (by omega), geti_swap_snd l i s hslen]
      exact hcmp
    · by_cases hq : (c - 1) / 2 = i
      · have hcchild : c = 2 * i + 1 ∨ c = 2 * i + 2 := by omega
        rw [hq]
        rw [geti_swap_fst l i s hilen (by omega),
          geti_swap_other l i s c (by omega) hcs]
        exact hother c hcchild hclen hcs
      · by_cases hci : c = i
        · have hipos : 0 < i := by omega
          rw [hci]
          rw [geti_swap_other l i s ((i - 1) / 2) (by omega) (by omega),
            geti_swap_fst l i s hilen (by omega)]
          exact hs.2 hipos s hslen (by omega)
        · rw [geti_swap_other l i s ((c - 1) / 2) hq hqne,
            geti_swap_other l i s c hci hcs]
          exact hs.1 c hc0 hclen hq
  · intro hspos c hclen hcchild
    rw [heap.swapIdx_length] at hclen
    rw [hps]
    have hcs : c ≠ s := by omega
    have hcinot : c ≠ i := by omega
    rw [geti_swap_fst l i s hilen (by omega),
      geti_swap_other l i s c hcinot hcs]
    have hqs : (c - 1) / 2 = s := by omega
    have hres := hs.1 c (by omega) hclen (by omega)
    rwa [hqs] at hres

/-- The down-heap loop turns its loop state into the heap shape
(fuel-indexed form). -/
theorem downHeap_state_fuel {T : Type} [Inhabited T] {compare : T → T → Int}
    (hc : IsTotalCmp compare) :
    ∀ (n : Nat) (l : List T) (i : Nat), l.length - i ≤ n →
      downState compare l i →
      parentInv compare (heap.downHeapList compare l i) := by
  intro n
  induction n with
  | zero =>
    intro l i hn hs
    rw [heap.downHeapList]
    split
    · rename_i heq
      exact downState_stop hc heq hs
    · rename_i hne
      have := heap.downSmallest_lt compare l i hne
      exact absurd hn (by omega)
  | succ n IH =>
    intro l i hn hs
    rw [heap.downHeapList]
    split
    · rename_i heq
      exact downState_stop hc heq hs
    · rename_i hne
      have hlt := heap.downSmallest_lt compare l i hne
      exact IH _ _ (by rw [heap.swapIdx_length]; omega) (downState_step hc hne hs)

/-- The down-heap loop turns its loop state into the heap shape. -/
theorem downHeap_state {T : Type} [Inhabited T] {compare : T → T → Int}
    (hc : IsTotalCmp compare) (l : List T) (i : Nat)
    (hs : downState compare l i) :
    parentInv compare (heap.downHeapList compare l i) :=
  downHeap_state_fuel hc l.length l i (by omega) hs

/-- The shrunken slice built by `Remove` satisfies the down-heap loop
state at the root. -/
theorem remove_downState {T : Type} [Inhabited T] {compare : T → T → Int}
    {l : List T} (hinv : parentInv compare l) :
    downState compare ((l.set 0 (geti l (l.length - 1))).take (l.length - 1)) 0 := by
  constructor
  · intro c hc0 hclen hq
    have hclen2 : c < l.length - 1 := by simp at hclen; omega
    rw [geti_take _ _ _ (by omega) (by simp; omega),
      geti_take _ _ _ (by omega) (by simp; omega)]
    rw [geti_set_ne _ _ _ _ (by omega), geti_set_ne _ _ _ _ (by omega)]
    exact hinv c hc0 (by omega)
  · intro h0
    exact absurd h0 (by omega)

/-- After `Remove` rearranges the slice, the heap shape holds again. -/
theorem remove_parentInv {T : Type} [Inhabited T] {compare : T → T → Int}
    (hc : IsTotalCmp compare) {l : List T} (hinv : parentInv compare l) :
    parentInv compare (heap.downHeapList compare
      ((l.set 0 (geti l (l.length - 1))).take (l.length - 1)) 0) :=
  downHeap_state hc _ _ (remove_downState hinv)

/-! ### The up-heap loop preserves the heap shape -/

/-- One swap of the up-heap loop re-establishes the loop state at the
parent. -/
theorem upState_step {T : Type} [Inhabited T] {compare : T → T → Int}
    (hc : IsTotalCmp compare) {l : List T} {i : Nat}
    (hi : i < l.length) (h0 : i ≠ 0)
    (hle : compare (geti l i) (geti l ((i - 1) / 2)) ≤ 0)
    (hs : upState compare l i) :
    upState compare (swapIdx l i ((i - 1) / 2)) ((i - 1) / 2) := by
  set p := (i - 1) / 2 with hpdef
  have hplt : p < i := by omega
  constructor
  · intro c hc0 hclen hcne
    rw [heap.swapIdx_length] at hclen
    by_cases hci : c = i
    · rw [hci]
      rw [show (i - 1) / 2 = p from rfl]
      rw [geti_swap_snd l i p (by omega), geti_swap_fst l i p hi (by omega)]
      exact hle
    · by_cases hq : (c - 1) / 2 = i
      · have hcchild : c = 2 * i + 1 ∨ c = 2 * i + 2 := by omega
        rw [hq]
        rw [geti_swap_fst l i p hi (by omega),
          geti_swap_other l i p c hci (by omega)]
        exact hs.2 c hclen hcchild (by omega)
      · by_cases hqp : (c - 1) / 2 = p
        · rw [hqp]
          rw [geti_swap_snd l i p (by omega),
            geti_swap_other l i p c hci hcne]
          have h1 : compare (geti l p) (geti l c) ≤ 0 := by
            have hr := hs.1 c hc0 hclen hci
            rwa [hqp] at hr
          exact hc.le_trans _ _ _ hle h1
        · rw [geti_swap_other l i p ((c - 1) / 2) hq hqp,
            geti_swap_other l i p c hci hcne]
          exact hs.1 c hc0 hclen hci
  · intro c hclen hcchild hppos
    rw [heap.swapIdx_length] at hclen
    have hgi : (p - 1) / 2 ≠ i := by omega
    have hgp : (p - 1) / 2 ≠ p := by omega
    by_cases hci : c = i
    · rw [hci]
      rw [geti_swap_other l i p ((p - 1) / 2) hgi hgp,
        geti_swap_fst l i p hi (by omega)]
      exact hs.1 p (by omega) (by omega) (by omega)
    · have hcp : c ≠ p := by omega
      rw [geti_swap_other l i p ((p - 1) / 2) hgi hgp,
        geti_swap_other l i p c hci hcp]
      have h1 : compare (geti l p) (geti l c) ≤ 0 := by
        have hr := hs.1 c (by omega) hclen hci
        rwa [show (c - 1) / 2 = p by omega] at hr
      exact hc.le_trans _ _ _ (hs.1 p (by omega) (by omega) (by omega)) h1

/-- The up-heap loop turns its loop state into the heap shape. -/
theorem upHeap_state {T : Type} [Inhabited T] {compare : T → T → Int}
    (hc : IsTotalCmp compare) :
    ∀ (i : Nat) (l : List T), i < l.length → upState compare l i →
      parentInv compare (heap.upHeapList compare l i) := by
  intro i
  induction i using Nat.strong_induction_on with
  | _ i IH =>
    intro l hi hs
    rw [heap.upHeapList]
    split
    · rename_i h0
      intro c hc0 hclen
      exact hs.1 c hc0 hclen (by omega)
    · rename_i h0
      dsimp only
      split
      · rename_i hgt
        intro c hc0 hclen
        by_cases hci : c = i
        · rw [hci]
          exact totalcmp_le_of_gt hc hgt
        · exact hs.1 c hc0 hclen hci
      · rename_i hngt
        have hple : compare (geti l i) (geti l ((i - 1) / 2)) ≤ 0 := by omega
        have hplt : (i - 1) / 2 < i := by
          have := Nat.div_le_self (i - 1) 2
          omega
        exact IH _ hplt _ (by rw [heap.swapIdx_length]; omega)
          (upState_step hc hi h0 hple hs)

/-- Appending an element and sifting it up from the last index preserves
the heap shape. -/
theorem insert_parentInv {T : Type} [Inhabited T] {compare : T → T → Int}
    (hc : IsTotalCmp compare) {l : List T} (hinv : parentInv compare l) (x : T) :
    parentInv compare (heap.upHeapList compare (l ++ [x]) ((l ++ [x]).length - 1)) := by
  have hlen : (l ++ [x]).length - 1 = l.length := by simp
  rw [hlen]
  refine upHeap_state hc l.length (l ++ [x]) (by simp) ⟨?_, ?_⟩
  · intro c hc0 hclen hcne
    have hclt : c < l.length := by simp at hclen; omega
    rw [geti_append _ _ _ (by omega), geti_append _ _ _ hclt]
    exact hinv c hc0 hclt
  · intro c hclen hcchild hipos
    exfalso
    simp at hclen
    omega

/-- The child-indexed heap property follows from the parent-indexed one. -/
theorem heapInv_of_parentInv {T : Type} [Inhabited T] {compare : T → T → Int}
    {l : List T} (h : parentInv compare l) : heapInv compare l := by
  intro i c hclen hchild
  have hq : (c - 1) / 2 = i := by omega
  have hc0 : 0 < c := by omega
  have hr := h c hc0 hclen
  rwa [hq] at hr

/-- The parent-indexed heap property follows from the child-indexed one. -/
theorem parentInv_of_heapInv {T : Type} [Inhabited T] {compare : T → T → Int}
    {l : List T} (h : heapInv compare l) : parentInv compare l := by
  intro c hc0 hclen
  exact h ((c - 1) / 2) c hclen (by omega)

/-- Every reachable heap keeps the construction comparator and the heap
shape. -/
theorem reachable_state {T : Type} [Inhabited T] {compare : T → T → Int}
    (hc : IsTotalCmp compare) {h : heap.Heap T} (hr : Reachable compare h) :
    h.compare = compare ∧ parentInv compare h.elements := by
  induction hr with
  | init =>
    refine ⟨rfl, ?_⟩
    intro c hc0 hclen
    simp [heap.NewGenericHeap] at hclen
  | insert x hr IH =>
    obtain ⟨hcmp, hinv⟩ := IH
    refine ⟨hcmp, ?_⟩
    show parentInv compare (heap.Heap.Insert _ x).elements
    simp only [heap.Heap.Insert]
    rw [hcmp]
    exact insert_parentInv hc hinv x
  | @remove hp hr IH =>
    obtain ⟨hcmp, hinv⟩ := IH
    by_cases hsz : hp.Size = 0
    · simp only [heap.Heap.Remove, if_pos hsz]
      exact ⟨hcmp, hinv⟩
    · simp only [heap.Heap.Remove, if_neg hsz]
      refine ⟨hcmp, ?_⟩
      show parentInv compare (heap.downHeapList hp.compare _ 0)
      rw [hcmp]
      simp only [heap.Heap.Size]
      exact remove_parentInv hc hinv

/-- C2: for every heap reachable from the empty heap by Insert and Remove
calls under a total-order comparator, the heap property holds: whenever a
child index 2i+1 or 2i+2 is within the element sequence, the element at i
compares at most 0 against the element at that child. -/
theorem heap_property_reachable {T : Type} [Inhabited T]
    (compare : T → T → Int) (hc : IsTotalCmp compare) (h : heap.Heap T)
    (hr : Reachable compare h) : heapInv compare h.Elements :=
  heapInv_of_parentInv (reachable_state hc hr).2

/-- C2 witness: the invariant at the concrete reachable heap obtained by
two insertions. -/
theorem heap_property_reachable_witness :
    IsTotalCmp intComparator
    ∧ heapInv intComparator
        (((heap.NewGenericHeap intComparator).Insert 3).Insert 5).Elements :=
  ⟨intComparator_total,
   heap_property_reachable intComparator intComparator_total _
     (Reachable.insert 5 (Reachable.insert 3 Reachable.init))⟩

/-! ### Sorted extraction -/

/-- Under the heap shape, the root compares at most 0 against every
entry. -/
theorem parentInv_root_min {T : Type} [Inhabited T] {compare : T → T → Int}
    (hc : IsTotalCmp compare) {l : List T} (hinv : parentInv compare l) :
    ∀ j : Nat, j < l.length → compare (geti l 0) (geti l j) ≤ 0 := by
  intro j
  induction j using Nat.strong_induction_on with
  | _ j IH =>
    intro hj
    rcases Nat.eq_zero_or_pos j with h0 | h0
    · rw [h0]
      rw [totalcmp_self hc]
    · have hq : (j - 1) / 2 < j := by
        have := Nat.div_le_self (j - 1) 2
        omega
      exact hc.le_trans _ _ _ (IH _ hq (by omega)) (hinv j h0 hj)

/-- Draining stops at a heap whose Remove reports the error. -/
theorem drainHeap_error {T : Type} [Inhabited T] {h : heap.Heap T}
    {e : String} {h2 : heap.Heap T}
    (hrem : h.Remove = (Except.error e, h2)) : heap.drainHeap h = [] := by
  rw [heap.drainHeap]
  split
  · rfl
  · rename_i x rest heq
    rw [hrem] at heq
    simp at heq

/-- Draining a heap whose Remove succeeds collects the removed root and
continues on the shrunken heap. -/
theorem drainHeap_ok {T : Type} [Inhabited T] {h : heap.Heap T} {x : T}
    {rest : heap.Heap T} (hrem : h.Remove = (Except.ok x, rest)) :
    heap.drainHeap h = x :: heap.drainHeap rest := by
  rw [heap.drainHeap]
  split
  · rename_i e h2 heq
    rw [hrem] at heq
    simp at heq
  · rename_i y rest2 heq
    rw [hrem] at heq
    injection heq with ha hb
    injection ha with ha
    rw [ha, hb]

/-- The slice left behind by Remove is a permutation of the tail. -/
theorem shrunk_perm {T : Type} [Inhabited T] (l : List T) (hne : l ≠ []) :
    ((l.set 0 (geti l (l.length - 1))).take (l.length - 1)).Perm (l.drop 1) := by
  cases l with
  | nil => exact absurd rfl hne
  | cons a m =>
    rcases eq_or_ne m [] with hm | hm
    · rw [hm]
      simp [geti]
    · have hmlen : 0 < m.length := List.length_pos.mpr hm
      have hgl : geti (a :: m) ((a :: m).length - 1) = m.getLast hm := by
        have hlen : (a :: m).length - 1 = (m.length - 1) + 1 := by
          simp
          omega
        rw [hlen]
        unfold geti
        rw [List.getD_cons_succ, List.getD_eq_getElem m default (by omega),
          List.getLast_eq_getElem]
      rw [hgl, List.set_cons_zero]
      have hlen2 : (a :: m).length - 1 = (m.length - 1) + 1 := by
        simp
        omega
      rw [hlen2, List.take_succ_cons, ← List.dropLast_eq_take]
      have hsplit : m.dropLast ++ [m.getLast hm] = m := List.dropLast_append_getLast hm
      have hstep : (m.getLast hm :: m.dropLast).Perm m := by
        conv_rhs => rw [← hsplit]
        simpa using (@List.perm_middle T (m.getLast hm) m.dropLast []).symm
      simpa using hstep

/-- Draining a heap in shape yields a non-decreasing permutation of its
slice (fuel-indexed form). -/
theorem drain_sorted_perm_fuel {T : Type} [Inhabited T] {compare : T → T → Int}
    (hc : IsTotalCmp compare) :
    ∀ (n : Nat) (l : List T), l.length ≤ n → parentInv compare l →
      (heap.drainHeap { elements := l, compare := compare }).Pairwise
          (fun a b => compare a b ≤ 0)
      ∧ (heap.drainHeap { elements := l, compare := compare }).Perm l := by
  intro n
  induction n with
  | zero =>
    intro l hn hinv
    have hl : l = [] := List.length_eq_zero.mp (by omega)
    rw [hl]
    rw [drainHeap_error (show ({ elements := ([] : List T), compare := compare } :
        heap.Heap T).Remove = (Except.error "empty heap",
        { elements := [], compare := compare }) by
      simp [heap.Heap.Remove, heap.Heap.Size])]
    exact ⟨List.Pairwise.nil, List.Perm.refl []⟩
  | succ n IH =>
    intro l hn hinv
    rcases eq_or_ne l [] with hl | hl
    · rw [hl]
      rw [drainHeap_error (show ({ elements := ([] : List T), compare := compare } :
          heap.Heap T).Remove = (Except.error "empty heap",
          { elements := [], compare := compare }) by
        simp [heap.Heap.Remove, heap.Heap.Size])]
      exact ⟨List.Pairwise.nil, List.Perm.refl []⟩
    · have hlen0 : l.length ≠ 0 := fun hcon => hl (List.length_eq_zero.mp hcon)
      have hrem : ({ elements := l, compare := compare } : heap.Heap T).Remove
          = (Except.ok (geti l 0),
             { elements := heap.downHeapList compare
                 ((l.set 0 (geti l (l.length - 1))).take (l.length - 1)) 0,
               compare := compare }) := by
        simp only [heap.Heap.Remove, heap.Heap.Size]
        rw [if_neg hlen0]
      rw [drainHeap_ok hrem]
      have hlen2 : (heap.downHeapList compare
          ((l.set 0 (geti l (l.length - 1))).take (l.length - 1)) 0).length
          = l.length - 1 := by
        rw [heap.downHeapList_length]
        simp
      have hinv2 : parentInv compare (heap.downHeapList compare
          ((l.set 0 (geti l (l.length - 1))).take (l.length - 1)) 0) :=
        remove_parentInv hc hinv
      obtain ⟨hp2, hperm2⟩ := IH _ (by omega) hinv2
      have hpermtail : (heap.downHeapList compare
          ((l.set 0 (geti l (l.length - 1))).take (l.length - 1)) 0).Perm
          (l.drop 1) :=
        (downHeapList_perm _ _ _).trans (shrunk_perm l hl)
      have hl0 : geti l 0 :: l.drop 1 = l := by
        cases l with
        | nil => exact absurd rfl hl
        | cons a m => simp [geti]
      constructor
      · refine List.Pairwise.cons ?_ hp2
        intro y hy
        have hyl : y ∈ l := by
          have h1 := hperm2.mem_iff.mp hy
          have h2 := hpermtail.mem_iff.mp h1
          exact List.mem_of_mem_drop h2
        obtain ⟨k, hk, hkeq⟩ := List.mem_iff_getElem.mp hyl
        rw [← hkeq, ← geti_eq_getElem l k hk]
        exact parentInv_root_min hc hinv k hk
      · refine (hperm2.cons (geti l 0)).trans ?_
        refine (hpermtail.cons (geti l 0)).trans ?_
        rw [hl0]

/-- Draining any heap in shape yields a non-decreasing permutation of its
slice. -/
theorem drain_sorted_perm {T : Type} [Inhabited T] {compare : T → T → Int}
    (hc : IsTotalCmp compare) (H : heap.Heap T) (hcmp : H.compare = compare)
    (hinv : parentInv compare H.elements) :
    (heap.drainHeap H).Pairwise (fun a b => compare a b ≤ 0)
    ∧ (heap.drainHeap H).Perm H.elements := by
  obtain ⟨els, cmpf⟩ := H
  simp only at hcmp hinv
  rw [hcmp]
  exact drain_sorted_perm_fuel hc els.length els (le_refl _) hinv

/-- Folding Insert over a list preserves the comparator and the heap
shape, and collects exactly the inserted elements. -/
theorem fold_insert {T : Type} [Inhabited T] {compare : T → T → Int}
    (hc : IsTotalCmp compare) :
    ∀ (xs : List T) (h : heap.Heap T), h.compare = compare →
      parentInv compare h.elements →
      (xs.foldl heap.Heap.Insert h).compare = compare
      ∧ parentInv compare (xs.foldl heap.Heap.Insert h).elements
      ∧ ((xs.foldl heap.Heap.Insert h).elements).Perm (h.elements ++ xs) := by
  intro xs
  induction xs with
  | nil =>
    intro h hcmp hinv
    exact ⟨hcmp, hinv, by simp⟩
  | cons x xs IH =>
    intro h hcmp hinv
    have hins_cmp : (h.Insert x).compare = compare := hcmp
    have hins_inv : parentInv compare (h.Insert x).elements := by
      show parentInv compare
        (heap.upHeapList h.compare (h.elements ++ [x]) ((h.elements ++ [x]).length - 1))
      rw [hcmp]
      exact insert_parentInv hc hinv x
    have hins_perm : ((h.Insert x).elements).Perm (h.elements ++ [x]) := by
      show (heap.upHeapList h.compare (h.elements ++ [x])
        ((h.elements ++ [x]).length - 1)).Perm (h.elements ++ [x])
      apply upHeapList_perm
      simp
    obtain ⟨hc1, hc2, hc3⟩ := IH (h.Insert x) hins_cmp hins_inv
    refine ⟨hc1, hc2, ?_⟩
    have hassoc : (h.elements ++ [x]) ++ xs = h.elements ++ (x :: xs) := by simp
    exact hc3.trans (by rw [← hassoc]; exact hins_perm.append_right xs)

/-- Building a heap by successive Insert calls and draining it by Remove
calls sorts the inserted elements under the construction comparator. -/
theorem sorted_extraction_generic {T : Type} [Inhabited T]
    (compare : T → T → Int) (hc : IsTotalCmp compare) (xs : List T) :
    (heap.drainHeap (xs.foldl heap.Heap.Insert
        (heap.NewGenericHeap compare))).Pairwise (fun a b => compare a b ≤ 0)
    ∧ (heap.drainHeap (xs.foldl heap.Heap.Insert
        (heap.NewGenericHeap compare))).Perm xs := by
  obtain ⟨hcmp, hinv, hperm⟩ := fold_insert hc xs (heap.NewGenericHeap compare)
    rfl (by intro c hc0 hclen; simp [heap.NewGenericHeap] at hclen)
  obtain ⟨hp, hq⟩ := drain_sorted_perm hc _ hcmp hinv
  refine ⟨hp, hq.trans ?_⟩
  simpa [heap.NewGenericHeap] using hperm

/-- C1: for every total-order comparator and every sequence of elements,
inserting them all via Insert and then removing until empty returns the
elements (a permutation of the input) in non-decreasing order under the
comparator; for the heap built by NewMaxHeap — the argument-swapped
comparator — the same procedure returns them in non-increasing order. -/
theorem sorted_extraction {T : Type} [Inhabited T] (compare : T → T → Int)
    (hc : IsTotalCmp compare) (xs : List T) :
    ((heap.drainHeap (xs.foldl heap.Heap.Insert
        (heap.NewGenericHeap compare))).Pairwise (fun a b => compare a b ≤ 0)
      ∧ (heap.drainHeap (xs.foldl heap.Heap.Insert
        (heap.NewGenericHeap compare))).Perm xs)
    ∧ ((heap.drainHeap (xs.foldl heap.Heap.Insert
        (heap.NewMaxHeap compare))).Pairwise (fun a b => compare b a ≤ 0)
      ∧ (heap.drainHeap (xs.foldl heap.Heap.Insert
        (heap.NewMaxHeap compare))).Perm xs) := by
  constructor
  · exact sorted_extraction_generic compare hc xs
  · exact sorted_extraction_generic (fun a b => compare b a)
      (totalcmp_flip compare hc) xs

/-- C1 witness: the sorted-extraction statement at the comparator of the
repository's tests and the concrete input [2, 1]. -/
theorem sorted_extraction_witness :
    IsTotalCmp intComparator
    ∧ (((heap.drainHeap ([2, 1].foldl heap.Heap.Insert
          (heap.NewGenericHeap intComparator))).Pairwise
          (fun a b => intComparator a b ≤ 0)
        ∧ (heap.drainHeap ([2, 1].foldl heap.Heap.Insert
          (heap.NewGenericHeap intComparator))).Perm [2, 1])
      ∧ ((heap.drainHeap ([2, 1].foldl heap.Heap.Insert
          (heap.NewMaxHeap intComparator))).Pairwise
          (fun a b => intComparator b a ≤ 0)
        ∧ (heap.drainHeap ([2, 1].foldl heap.Heap.Insert
          (heap.NewMaxHeap intComparator))).Perm [2, 1])) :=
  ⟨intComparator_total,
   sorted_extraction intComparator intComparator_total [2, 1]⟩
